import Mathlib

/-!
Verification development for the segmentation labeling tool
(`labeling_tool.py`).  The file shallowly embeds the parts of the script
that the specification talks about:

* the five-prompt console question loop (`question_loop`, lines 160-299),
* the graceful-stop path (`stop_labeling`, lines 69-88),
* the resume filter over an existing results file (lines 345-353),
* the prefetching session loop (lines 358-441), including viewer
  launches, terminations and record appends, abstracted as an event
  trace,
* the comment sanitization and the comma-separated record line
  (lines 417 and 437-438),
* the region-of-interest mask construction in `run_freeview`
  (lines 111-114), with numpy basic-slicing semantics,
* the FreeSurfer path resolution block (lines 313-322).

Console input is a list of typed lines (plus KeyboardInterrupt events);
randomness of `random.shuffle` on the two-element index list is a
boolean stream deciding, per shuffle, the resulting order.
-/

namespace SegLabel

/-- A worklist row of the input csv: `sid` is the dataframe index column
`subject_id` (used in the freeview subtitle), `rid` is the `ID` column
(written as the first field of the results file and used by the resume
filter), `numDiff` is the `num_differences` column. -/
structure Row where
  sid : String
  rid : String
  numDiff : Nat
deriving DecidableEq, Repr

/-- Default row used only for out-of-range `List.getD` lookups in
statements. -/
def defRow : Row := ⟨"", "", 0⟩

/-- A live viewer session: the subject shown in the window subtitle and
the shuffled pair of method names `(slot 1, slot 2)`. -/
structure Sess where
  sid : String
  methods : String × String
deriving DecidableEq, Repr

/-- Console input: a line typed at a prompt, or a KeyboardInterrupt. -/
inductive Inp where
  | line (s : String)
  | interrupt
deriving DecidableEq, Repr

/-- The five prompts of `question_loop`: preference, confidence,
difference magnitude, failure indicator, comment. -/
inductive QPhase where
  | pref
  | conf
  | diff
  | fail
  | comm
deriving DecidableEq, Repr

/-- Answers accumulated across the prompts (`best`, `confidence`,
`difference_strength`, `fail` in the script). -/
structure QAcc where
  best : String
  confidence : String
  ds : Nat
  fl : String
deriving DecidableEq, Repr

/-- The tuple returned by `question_loop` on completion. -/
structure QRes where
  best : String
  confidence : String
  ds : Nat
  fl : String
  comment : String
deriving DecidableEq, Repr

/-- Outcome of a single prompt: `stop` (the literal stop command or an
interrupt), advance/stay with updated accumulator, or final answer after
the comment prompt. -/
inductive QOut where
  | stop
  | cont (ph : QPhase) (acc : QAcc)
  | done (r : QRes)
deriving DecidableEq, Repr

/-- Initial accumulator: the script initializes `best`, `confidence` and
`fail` to the empty string; `difference_strength` has no initial value,
modelled as `0` (it is always overwritten before use). -/
def accInit : QAcc := ⟨"", "", 0, ""⟩

/-- One prompt of `question_loop` (lines 160-299).  Each branch mirrors
the corresponding `if answer == 'stop' / elif answer in [...]` chain of
the script: the stop command and KeyboardInterrupt yield `stop`, a valid
answer advances to the next prompt with the documented mapping applied,
anything else re-asks the same prompt with the accumulator unchanged. -/
def qStep (m : String × String) (ph : QPhase) (acc : QAcc) (i : Inp) : QOut :=
  match i with
  | .interrupt => .stop
  | .line s =>
    if s = "stop" then .stop else
    match ph with
    | .pref =>
      if s = "1" then .cont .conf ⟨m.1, acc.confidence, acc.ds, acc.fl⟩
      else if s = "2" then .cont .conf ⟨m.2, acc.confidence, acc.ds, acc.fl⟩
      else .cont .pref acc
    | .conf =>
      if s = "1" then .cont .diff ⟨acc.best, "random", acc.ds, acc.fl⟩
      else if s = "2" then .cont .diff ⟨acc.best, "uncertain", acc.ds, acc.fl⟩
      else if s = "3" then .cont .diff ⟨acc.best, "certain", acc.ds, acc.fl⟩
      else .cont .conf acc
    | .diff =>
      if s = "0" then .cont .fail ⟨acc.best, acc.confidence, 0, acc.fl⟩
      else if s = "1" then .cont .fail ⟨acc.best, acc.confidence, 1, acc.fl⟩
      else if s = "2" then .cont .fail ⟨acc.best, acc.confidence, 2, acc.fl⟩
      else if s = "3" then .cont .fail ⟨acc.best, acc.confidence, 3, acc.fl⟩
      else .cont .diff acc
    | .fail =>
      if s = "0" then .cont .comm ⟨acc.best, acc.confidence, acc.ds, "None"⟩
      else if s = "1" then .cont .comm ⟨acc.best, acc.confidence, acc.ds, m.1⟩
      else if s = "2" then .cont .comm ⟨acc.best, acc.confidence, acc.ds, m.2⟩
      else if s = "3" then .cont .comm ⟨acc.best, acc.confidence, acc.ds, m.1 ++ "+" ++ m.2⟩
      else .cont .fail acc
    | .comm => .done ⟨acc.best, acc.confidence, acc.ds, acc.fl, s⟩

/-- Result of running `question_loop` on a finite list of console
inputs: stopped by the stop command / interrupt, inputs exhausted while
still prompting, or the completed answer tuple. -/
inductive QLoopRes where
  | stopped
  | outOfInput
  | finished (r : QRes)
deriving DecidableEq, Repr

/-- Run `question_loop` from a given prompt on a list of console inputs;
also returns the unconsumed inputs. -/
def runQ (m : String × String) : QPhase → QAcc → List Inp → QLoopRes × List Inp
  | _, _, [] => (.outOfInput, [])
  | ph, acc, i :: rest =>
    match qStep m ph acc i with
    | .stop => (.stopped, rest)
    | .done r => (.finished r, rest)
    | .cont ph' acc' => runQ m ph' acc' rest

/-- Observable actions of the session loop, in program order: launching
a freeview session (`run_freeview`), entering `question_loop` for the
current session, sending SIGTERM to a session, appending a record line
to the results file. -/
inductive Event where
  | launch (sid : String)
  | ask (sid : String)
  | terminate (sid : String)
  | append (rid : String)
deriving DecidableEq, Repr

/-- One line of the results file, structured (line 438 of the script):
`ID`, the two slot method names, the chosen best, the confidence label,
the difference strength, the failure field, the sanitized comment, the
labeler and `num_differences`.  The elapsed wall-clock time also written
by the script is real-time behavior and is not modelled. -/
structure LabelRecord where
  id : String
  m1 : String
  m2 : String
  best : String
  confidence : String
  ds : Nat
  fl : String
  comment : String
  user : String
  numDiff : Nat
deriving DecidableEq, Repr

/-- How a run ends: the loop exhausted the pair list (the script falls
off `__main__`, exit status 0), `stop_labeling` ran `sys.exit(0)`, or
the modelled console input ran dry mid-prompt (the real script would
block forever waiting for input). -/
inductive Outcome where
  | completed
  | stoppedExit0
  | outOfInput
deriving DecidableEq, Repr

/-- Exit status of the process for each outcome, when it exits. -/
def exitCodeOf : Outcome → Option Nat
  | .completed => some 0
  | .stoppedExit0 => some 0
  | .outOfInput => none

/-- Result of one `random.shuffle` of the two-element index list
`[0, 1]`: the boolean decides whether the order is swapped. -/
def methodsFor (m1 m2 : String) (b : Bool) : String × String :=
  if b then (m2, m1) else (m1, m2)

/-- Line 417 of the script: `comment.replace(',', ';')`. -/
def sanitizeStr (s : String) : String :=
  String.map (fun c => if c = ',' then ';' else c) s

/-- The pair sequence the session loop iterates over, line 358:
`zip(diff_areas[:-1].iterrows(), diff_areas[1:].iterrows())`, i.e. the
adjacent pairs of the (filtered) worklist. -/
def pairsOf : List Row → List (Row × Row)
  | a :: b :: rest => (a, b) :: pairsOf (b :: rest)
  | _ => []

/-- The steady state of the session loop (lines 388-440), one recursive
step per worklist pair `(row, rowNext)`: the previously prefetched
session `cur` becomes current, a session for `rowNext` is launched with
a fresh shuffle, `question_loop` runs on the console inputs; on a normal
answer tuple the current session is SIGTERMed, one record is appended
and the loop continues with the prefetched session; on the stop command
or an interrupt `stop_labeling` SIGTERMs both live sessions and exits 0
with nothing appended.  Returns the event trace, the appended records in
order, and the outcome. -/
def sessionLoopAux (m1 m2 user : String) (sh : Nat → Bool) :
    List (Row × Row) → Sess → Nat → List Inp →
    List Event × List LabelRecord × Outcome
  | [], _, _, _ => ([], [], .completed)
  | (row, rowNext) :: rest, cur, k, inputs =>
    let nxt : Sess := ⟨rowNext.sid, methodsFor m1 m2 (sh k)⟩
    match runQ cur.methods .pref accInit inputs with
    | (.stopped, _) =>
        ([.launch nxt.sid, .ask cur.sid, .terminate cur.sid, .terminate nxt.sid],
         [], .stoppedExit0)
    | (.outOfInput, _) =>
        ([.launch nxt.sid, .ask cur.sid], [], .outOfInput)
    | (.finished r, leftover) =>
        let res := sessionLoopAux m1 m2 user sh rest nxt (k + 1) leftover
        (.launch nxt.sid :: .ask cur.sid :: .terminate cur.sid :: .append row.rid :: res.1,
         ⟨row.rid, cur.methods.1, cur.methods.2, r.best, r.confidence, r.ds, r.fl,
          sanitizeStr r.comment, user, row.numDiff⟩ :: res.2.1,
         res.2.2)

/-- The whole session loop over a worklist (lines 358-441).  With fewer
than two rows the pair list is empty and the loop body never runs (so a
single-row worklist is never labeled).  Otherwise the first iteration
takes the `p_next is None` branch: it launches the current session for
the first row (shuffle number 0) and then proceeds exactly as the steady
state, which launches the prefetched session before the questions. -/
def runOrchestrator (m1 m2 user : String) (sh : Nat → Bool) (w : List Row)
    (inputs : List Inp) : List Event × List LabelRecord × Outcome :=
  match w with
  | row :: _ :: _ =>
    let res := sessionLoopAux m1 m2 user sh (pairsOf w)
      ⟨row.sid, methodsFor m1 m2 (sh 0)⟩ 1 inputs
    (.launch row.sid :: res.1, res.2)
  | _ => ([], [], .completed)

/-- The resume filter, lines 345-353: rows whose `ID` is in the first
column of the existing results file are removed; the remainder keeps its
order (`diff_areas[~diff_areas['ID'].isin(already_labeled_subjs)]`). -/
def resumeFilter (alreadyLabeled : List String) (w : List Row) : List Row :=
  w.filter (fun r => !(alreadyLabeled.contains r.rid))

/-- The results file contents after a run: the file is opened in append
mode, so the records of the run go after whatever was already there. -/
def finalStore (prior newRecs : List LabelRecord) : List LabelRecord :=
  prior ++ newRecs

/-- Net number of live viewer processes contributed by one event:
a launch creates one, a SIGTERM removes one. -/
def eventDelta : Event → Int
  | .launch _ => 1
  | .terminate _ => -1
  | _ => 0

/-- Net number of live viewer processes after a list of events. -/
def aliveDelta : List Event → Int
  | [] => 0
  | e :: t => eventDelta e + aliveDelta t

/-- Boolean membership test on event lists. -/
def memB (e : Event) : List Event → Bool
  | [] => false
  | x :: t => if x = e then true else memB e t

/-- The first occurrence of `a` in the trace is followed, strictly
later, by an occurrence of `b` (see `beforeB_iff` below for the
position-based reading). -/
def beforeB : List Event → Event → Event → Bool
  | [], _, _ => false
  | x :: t, a, b => if x = a then memB b t else beforeB t a b

/-- The subject identifiers of the append events of a trace, in order. -/
def appendsOf : List Event → List String
  | [] => []
  | .append r :: t => r :: appendsOf t
  | _ :: t => appendsOf t

/-- Line 417 of the script on character lists:
`comment.replace(',', ';')` maps every comma to a semicolon. -/
def sanitizeComment (s : List Char) : List Char :=
  s.map (fun c => if c = ',' then ';' else c)

/-- Joining fields with a single delimiter character, the semantics of
the comma-separated f-string of line 438. -/
def joinWith (c : Char) : List (List Char) → List Char
  | [] => []
  | [f] => f
  | f :: g :: fs => f ++ c :: joinWith c (g :: fs)

/-- Splitting a character list at every occurrence of the delimiter
(the semantics of `line.split(',')` a reader of the results file would
apply). -/
def splitOnChar (c : Char) : List Char → List (List Char)
  | [] => [[]]
  | x :: xs =>
    if x = c then [] :: splitOnChar c xs
    else (x :: (splitOnChar c xs).headD []) :: (splitOnChar c xs).tail

/-- The physical record line of line 438 of the script: the 11 fields in
file order joined by commas, newline-terminated.  The comment argument
is expected already sanitized (see `persistedLine`). -/
def recordLine (idc m1c m2c bestc confc dsc flc commentc userc elapsedc ndiffc :
    List Char) : List Char :=
  joinWith ','
    [idc, m1c, m2c, bestc, confc, dsc, flc, commentc, userc, elapsedc, ndiffc]
    ++ ['\n']

/-- Lines 417 and 437-438 composed: sanitize the comment, then append
the record line to the results file. -/
def persistedLine (idc m1c m2c bestc confc dsc flc commentc userc elapsedc ndiffc :
    List Char) : List Char :=
  recordLine idc m1c m2c bestc confc dsc flc (sanitizeComment commentc)
    userc elapsedc ndiffc

/-- Numpy basic-slicing normalization of one slice bound for step 1 on
an axis of length `len`: a negative bound has the axis length added
(offset from the end), then the result is clipped to `[0, len]`. -/
def normSlice (len s : Int) : Int :=
  max 0 (min (if s < 0 then s + len else s) len)

/-- Whether index `i` is selected by the slice `s : e` on an axis of
length `len`, after numpy normalization. -/
def inSliceB (len s e i : Int) : Bool :=
  decide (normSlice len s ≤ i) && decide (i < normSlice len e)

/-- The mask built by `run_freeview` (lines 113-114): start from all
ones and assign zero on
`[int(c0)-20 : int(c0)+20, int(c1)-20 : int(c1)+20, int(c2)-20 : int(c2)+20]`,
with numpy slicing semantics on each axis.  `center` holds the values of
`int(center[i])`. -/
def maskVal (shape center v : Int × Int × Int) : Int :=
  if inSliceB shape.1 (center.1 - 20) (center.1 + 20) v.1
      && inSliceB shape.2.1 (center.2.1 - 20) (center.2.1 + 20) v.2.1
      && inSliceB shape.2.2 (center.2.2 - 20) (center.2.2 + 20) v.2.2
  then 0 else 1

/-- Whether a voxel index lies inside the volume shape. -/
def inShapeB (shape v : Int × Int × Int) : Bool :=
  decide (0 ≤ v.1) && decide (v.1 < shape.1)
    && decide (0 ≤ v.2.1) && decide (v.2.1 < shape.2.1)
    && decide (0 ≤ v.2.2) && decide (v.2.2 < shape.2.2)

/-- Modelled from the spec: the cube of 40 voxels per side around the
coordinate that the specification claims is zeroed, i.e. indices in
`[int(c)-20, int(c)+20)` on every axis.  Used to compare the claimed
region with what `maskVal` actually zeroes. -/
def inSpecCubeB (center v : Int × Int × Int) : Bool :=
  decide (center.1 - 20 ≤ v.1) && decide (v.1 < center.1 + 20)
    && decide (center.2.1 - 20 ≤ v.2.1) && decide (v.2.1 < center.2.1 + 20)
    && decide (center.2.2 - 20 ≤ v.2.2) && decide (v.2.2 < center.2.2 + 20)

/-- The Python exceptions the FreeSurfer path block can raise. -/
inductive PyErr where
  | keyError
  | nameError
deriving DecidableEq, Repr

/-- The FreeSurfer home resolution of lines 313-322 together with the
first use of `freesurfer_path` (line 375), with `env` the value of the
`FREESURFER_HOME` environment variable when set.  When `--fs` is given
the block is skipped and `freesurfer_path` is never assigned, so the
first use raises NameError.  When `--fs` is absent,
`os.environ["FREESURFER_HOME"]` raises KeyError when the variable is
unset (so the `paths_to_try` fallback of lines 317-322 is unreachable:
the tested condition `is not None` can never be False, and the loop
would test `os.path.isdir(paths_to_try)`, the list itself, anyway);
when the variable is set its value is used.  `dirExists` models which
well-known install directories exist; the code's behavior never
consults it. -/
def resolveFreesurferPath (fsArg : Option String) (env : Option String)
    (dirExists : String → Bool) : Except PyErr String :=
  match fsArg with
  | some _ => .error .nameError
  | none =>
    match env with
    | none => .error .keyError
    | some v => .ok v

/-! ### Helper lemmas about splitting and joining record lines -/

theorem sanitizeComment_not_mem (s : List Char) : ',' ∉ sanitizeComment s := by
  intro h
  rcases List.mem_map.mp h with ⟨c, _, hc⟩
  by_cases h' : c = ',' <;> simp [h'] at hc

theorem splitOnChar_of_not_mem {c : Char} {f : List Char} (h : c ∉ f) :
    splitOnChar c f = [f] := by
  induction f with
  | nil => rfl
  | cons x xs ih =>
    have hx : ¬ x = c := fun hxc => h (hxc ▸ List.mem_cons_self x xs)
    have hxs : c ∉ xs := fun hm => h (List.mem_cons_of_mem x hm)
    simp [splitOnChar, hx, ih hxs]

theorem splitOnChar_append {c : Char} {f : List Char} (h : c ∉ f)
    (r : List Char) : splitOnChar c (f ++ c :: r) = f :: splitOnChar c r := by
  induction f with
  | nil => simp [splitOnChar]
  | cons x xs ih =>
    have hx : ¬ x = c := fun hxc => h (hxc ▸ List.mem_cons_self x xs)
    have hxs : c ∉ xs := fun hm => h (List.mem_cons_of_mem x hm)
    simp [splitOnChar, hx, ih hxs]

theorem splitOnChar_joinWith {c : Char} :
    ∀ fs : List (List Char), fs ≠ [] → (∀ f ∈ fs, c ∉ f) →
      splitOnChar c (joinWith c fs) = fs
  | [], h, _ => absurd rfl h
  | [f], _, hall => by
      simp [joinWith, splitOnChar_of_not_mem (hall f (by simp))]
  | f :: g :: fs, _, hall => by
      have hf : c ∉ f := hall f (by simp)
      have hrest : ∀ x ∈ g :: fs, c ∉ x := fun x hx =>
        hall x (List.mem_cons_of_mem f hx)
      have ih := splitOnChar_joinWith (g :: fs) (by simp) hrest
      simp [joinWith, splitOnChar_append hf, ih]

/-- Claim C5: for every comment string containing the field delimiter
(comma), the persisted record has every occurrence of that character
escaped (replaced by a semicolon) before writing, and the written line
still splits on the delimiter into exactly the 11 documented fields
(subject id, slot-1 method, slot-2 method, chosen best, confidence,
difference strength, failure field, comment, labeler, elapsed seconds,
original difference count), newline-terminated.  The other ten fields
are assumed delimiter-free, as the claim quantifies only over the
comment. -/
theorem comment_sanitization_round_trip
    (idc m1c m2c bestc confc dsc flc commentc userc elapsedc ndiffc : List Char)
    (h1 : ',' ∉ idc) (h2 : ',' ∉ m1c) (h3 : ',' ∉ m2c) (h4 : ',' ∉ bestc)
    (h5 : ',' ∉ confc) (h6 : ',' ∉ dsc) (h7 : ',' ∉ flc) (h8 : ',' ∉ userc)
    (h9 : ',' ∉ elapsedc) (h10 : ',' ∉ ndiffc) :
    ',' ∉ sanitizeComment commentc ∧
    splitOnChar ','
        ((persistedLine idc m1c m2c bestc confc dsc flc commentc userc
            elapsedc ndiffc).dropLast)
      = [idc, m1c, m2c, bestc, confc, dsc, flc, sanitizeComment commentc,
          userc, elapsedc, ndiffc] ∧
    (splitOnChar ','
        ((persistedLine idc m1c m2c bestc confc dsc flc commentc userc
            elapsedc ndiffc).dropLast)).length = 11 ∧
    (persistedLine idc m1c m2c bestc confc dsc flc commentc userc elapsedc
        ndiffc).getLast? = some '\n' := by
  have hsan := sanitizeComment_not_mem commentc
  have hdrop : (persistedLine idc m1c m2c bestc confc dsc flc commentc userc
      elapsedc ndiffc).dropLast
      = joinWith ',' [idc, m1c, m2c, bestc, confc, dsc, flc,
          sanitizeComment commentc, userc, elapsedc, ndiffc] := by
    simp [persistedLine, recordLine]
  have hall : ∀ f ∈ [idc, m1c, m2c, bestc, confc, dsc, flc,
      sanitizeComment commentc, userc, elapsedc, ndiffc], ',' ∉ f := by
    intro f hf
    simp only [List.mem_cons, List.not_mem_nil, or_false] at hf
    rcases hf with h | h | h | h | h | h | h | h | h | h | h <;> subst h <;>
      assumption
  have hsplit := splitOnChar_joinWith
    [idc, m1c, m2c, bestc, confc, dsc, flc, sanitizeComment commentc,
      userc, elapsedc, ndiffc] (by simp) hall
  refine ⟨hsan, ?_, ?_, ?_⟩
  · rw [hdrop, hsplit]
  · rw [hdrop, hsplit]; rfl
  · simp [persistedLine, recordLine]

/-- Witness for C5 at a concrete record whose comment contains commas. -/
theorem comment_sanitization_round_trip_witness :
    ',' ∉ sanitizeComment ['a', ',', 'b', ',', 'c'] ∧
    splitOnChar ','
        ((persistedLine ['S', '1'] ['A'] ['B'] ['A'] ['c'] ['2'] ['N']
            ['a', ',', 'b', ',', 'c'] ['u'] ['7'] ['9']).dropLast)
      = [['S', '1'], ['A'], ['B'], ['A'], ['c'], ['2'], ['N'],
          sanitizeComment ['a', ',', 'b', ',', 'c'], ['u'], ['7'], ['9']] ∧
    (splitOnChar ','
        ((persistedLine ['S', '1'] ['A'] ['B'] ['A'] ['c'] ['2'] ['N']
            ['a', ',', 'b', ',', 'c'] ['u'] ['7'] ['9']).dropLast)).length = 11 ∧
    (persistedLine ['S', '1'] ['A'] ['B'] ['A'] ['c'] ['2'] ['N']
        ['a', ',', 'b', ',', 'c'] ['u'] ['7'] ['9']).getLast? = some '\n' :=
  comment_sanitization_round_trip ['S', '1'] ['A'] ['B'] ['A'] ['c'] ['2']
    ['N'] ['a', ',', 'b', ',', 'c'] ['u'] ['7'] ['9']
    (by decide) (by decide) (by decide) (by decide) (by decide) (by decide)
    (by decide) (by decide) (by decide) (by decide)

/-- Claim C4: each of the five prompts re-asks itself on any answer
outside its enumerated valid set (phase and accumulator unchanged), and
a valid answer advances exactly one prompt with the documented mapping:
preference "1"/"2" to the method name in that slot; confidence
"1"/"2"/"3" to random/uncertain/certain; difference magnitude "0"-"3"
to the ordinal integer; failure indicator "0"/"1"/"2"/"3" to
none / slot-1 method / slot-2 method / both; the comment prompt accepts
every non-stop line as the comment. -/
theorem prompt_step_mappings (m : String × String) (acc : QAcc) :
    (∀ s, ¬ s = "stop" → ¬ s = "1" → ¬ s = "2" →
      qStep m .pref acc (.line s) = .cont .pref acc) ∧
    qStep m .pref acc (.line "1")
      = .cont .conf ⟨m.1, acc.confidence, acc.ds, acc.fl⟩ ∧
    qStep m .pref acc (.line "2")
      = .cont .conf ⟨m.2, acc.confidence, acc.ds, acc.fl⟩ ∧
    (∀ s, ¬ s = "stop" → ¬ s = "1" → ¬ s = "2" → ¬ s = "3" →
      qStep m .conf acc (.line s) = .cont .conf acc) ∧
    qStep m .conf acc (.line "1")
      = .cont .diff ⟨acc.best, "random", acc.ds, acc.fl⟩ ∧
    qStep m .conf acc (.line "2")
      = .cont .diff ⟨acc.best, "uncertain", acc.ds, acc.fl⟩ ∧
    qStep m .conf acc (.line "3")
      = .cont .diff ⟨acc.best, "certain", acc.ds, acc.fl⟩ ∧
    (∀ s, ¬ s = "stop" → ¬ s = "0" → ¬ s = "1" → ¬ s = "2" → ¬ s = "3" →
      qStep m .diff acc (.line s) = .cont .diff acc) ∧
    qStep m .diff acc (.line "0")
      = .cont .fail ⟨acc.best, acc.confidence, 0, acc.fl⟩ ∧
    qStep m .diff acc (.line "1")
      = .cont .fail ⟨acc.best, acc.confidence, 1, acc.fl⟩ ∧
    qStep m .diff acc (.line "2")
      = .cont .fail ⟨acc.best, acc.confidence, 2, acc.fl⟩ ∧
    qStep m .diff acc (.line "3")
      = .cont .fail ⟨acc.best, acc.confidence, 3, acc.fl⟩ ∧
    (∀ s, ¬ s = "stop" → ¬ s = "0" → ¬ s = "1" → ¬ s = "2" → ¬ s = "3" →
      qStep m .fail acc (.line s) = .cont .fail acc) ∧
    qStep m .fail acc (.line "0")
      = .cont .comm ⟨acc.best, acc.confidence, acc.ds, "None"⟩ ∧
    qStep m .fail acc (.line "1")
      = .cont .comm ⟨acc.best, acc.confidence, acc.ds, m.1⟩ ∧
    qStep m .fail acc (.line "2")
      = .cont .comm ⟨acc.best, acc.confidence, acc.ds, m.2⟩ ∧
    qStep m .fail acc (.line "3")
      = .cont .comm ⟨acc.best, acc.confidence, acc.ds, m.1 ++ "+" ++ m.2⟩ ∧
    (∀ s, ¬ s = "stop" →
      qStep m .comm acc (.line s)
        = .done ⟨acc.best, acc.confidence, acc.ds, acc.fl, s⟩) := by
  refine ⟨?_, rfl, rfl, ?_, rfl, rfl, rfl, ?_, rfl, rfl, rfl, rfl, ?_,
    rfl, rfl, rfl, rfl, ?_⟩
  · intro s h0 h1 h2; simp [qStep, h0, h1, h2]
  · intro s h0 h1 h2 h3; simp [qStep, h0, h1, h2, h3]
  · intro s h0 ha h1 h2 h3; simp [qStep, h0, ha, h1, h2, h3]
  · intro s h0 ha h1 h2 h3; simp [qStep, h0, ha, h1, h2, h3]
  · intro s h0; simp [qStep, h0]

/-- Witness for C4: each hypothesis-bearing conjunct applied at a
concrete invalid (or, for the comment prompt, arbitrary non-stop)
answer. -/
theorem prompt_step_mappings_witness :
    qStep ("A", "B") .pref accInit (.line "7") = .cont .pref accInit ∧
    qStep ("A", "B") .conf accInit (.line "9") = .cont .conf accInit ∧
    qStep ("A", "B") .diff accInit (.line "x") = .cont .diff accInit ∧
    qStep ("A", "B") .fail accInit (.line "yes") = .cont .fail accInit ∧
    qStep ("A", "B") .comm accInit (.line "hello")
      = .done ⟨"", "", 0, "", "hello"⟩ := by
  obtain ⟨p1, _, _, p4, _, _, _, p8, _, _, _, _, p13, _, _, _, _, p18⟩ :=
    prompt_step_mappings ("A", "B") accInit
  exact ⟨p1 "7" (by decide) (by decide) (by decide),
    p4 "9" (by decide) (by decide) (by decide) (by decide),
    p8 "x" (by decide) (by decide) (by decide) (by decide) (by decide),
    p13 "yes" (by decide) (by decide) (by decide) (by decide) (by decide),
    p18 "hello" (by decide)⟩

/-- Claim C3: the literal stop command or a KeyboardInterrupt at any of
the five prompts stops the question loop; in the session loop this
sends SIGTERM to both currently-open viewer sessions (current and
prefetched), appends zero records for the in-progress subject, exits
the program with success status, and leaves previously-written records
unchanged (the results file, opened in append mode, keeps its prior
contents). -/
theorem stop_terminates_both_sessions_exit0 :
    (∀ (m : String × String) (ph : QPhase) (acc : QAcc),
      qStep m ph acc (.line "stop") = .stop ∧ qStep m ph acc .interrupt = .stop) ∧
    (∀ (m1 m2 user : String) (sh : Nat → Bool) (row rowNext : Row)
        (rest : List (Row × Row)) (cur : Sess) (k : Nat) (inputs : List Inp),
      (runQ cur.methods .pref accInit inputs).1 = .stopped →
      sessionLoopAux m1 m2 user sh ((row, rowNext) :: rest) cur k inputs
        = ([.launch rowNext.sid, .ask cur.sid, .terminate cur.sid,
            .terminate rowNext.sid], [], .stoppedExit0)) ∧
    exitCodeOf .stoppedExit0 = some 0 ∧
    (∀ prior : List LabelRecord, finalStore prior [] = prior) := by
  refine ⟨?_, ?_, rfl, fun prior => by simp [finalStore]⟩
  · intro m ph acc
    exact ⟨by cases ph <;> rfl, by cases ph <;> rfl⟩
  · intro m1 m2 user sh row rowNext rest cur k inputs hstop
    rcases hq : runQ cur.methods .pref accInit inputs with ⟨res, l⟩
    rw [hq] at hstop
    simp only at hstop
    subst hstop
    simp [sessionLoopAux, hq]

/-- Witness for C3: a run over two concrete subjects where the operator
answers "stop" at the very first prompt. -/
theorem stop_terminates_both_sessions_exit0_witness :
    sessionLoopAux "A" "B" "tester" (fun _ => false)
        [(⟨"S1", "S1", 5⟩, ⟨"S2", "S2", 6⟩)] ⟨"S1", ("A", "B")⟩ 1
        [.line "stop"]
      = ([.launch "S2", .ask "S1", .terminate "S1", .terminate "S2"],
          [], .stoppedExit0) :=
  stop_terminates_both_sessions_exit0.2.1 "A" "B" "tester" (fun _ => false)
    ⟨"S1", "S1", 5⟩ ⟨"S2", "S2", 6⟩ [] ⟨"S1", ("A", "B")⟩ 1 [.line "stop"]
    (by decide)

/-! ### Mask construction -/

theorem normSlice_eq_self {len s : Int} (h0 : 0 ≤ s) (h1 : s ≤ len) :
    normSlice len s = s := by
  unfold normSlice
  rw [if_neg (by omega)]
  rw [min_eq_left h1, max_eq_right h0]

/-- Counterexample to claim C8 as stated: on a 64-cubed volume with the
cube center at `(10, 32, 32)` the voxel `(10, 32, 32)` is inside the
volume and inside the claimed 40-voxel cube around the center, yet the
constructed mask is one there, not zero: the axis-0 slice bound
`10 - 20 = -10` wraps to `54`, making the zeroed region empty. -/
theorem mask_cube_counterexample :
    inShapeB (64, 64, 64) (10, 32, 32) = true ∧
    inSpecCubeB (10, 32, 32) (10, 32, 32) = true ∧
    maskVal (64, 64, 64) (10, 32, 32) (10, 32, 32) = 1 := by decide

/-- Claim C8 amended: when the cube fits inside the volume on every
axis (`20 ≤ int(c)` and `int(c) + 20 ≤ extent` componentwise), the mask
is zero at exactly the voxels of the 40-voxel cube
`[int(c)-20, int(c)+20)` around the coordinate and one at every other
voxel. -/
theorem mask_cube_in_bounds (L0 L1 L2 c0 c1 c2 v0 v1 v2 : Int)
    (ha0 : 0 ≤ c0 - 20) (hb0 : c0 + 20 ≤ L0)
    (ha1 : 0 ≤ c1 - 20) (hb1 : c1 + 20 ≤ L1)
    (ha2 : 0 ≤ c2 - 20) (hb2 : c2 + 20 ≤ L2) :
    (maskVal (L0, L1, L2) (c0, c1, c2) (v0, v1, v2) = 0 ↔
      inSpecCubeB (c0, c1, c2) (v0, v1, v2) = true) ∧
    (inSpecCubeB (c0, c1, c2) (v0, v1, v2) = false →
      maskVal (L0, L1, L2) (c0, c1, c2) (v0, v1, v2) = 1) := by
  have e0s : normSlice L0 (c0 - 20) = c0 - 20 :=
    normSlice_eq_self ha0 (by omega)
  have e0e : normSlice L0 (c0 + 20) = c0 + 20 :=
    normSlice_eq_self (by omega) hb0
  have e1s : normSlice L1 (c1 - 20) = c1 - 20 :=
    normSlice_eq_self ha1 (by omega)
  have e1e : normSlice L1 (c1 + 20) = c1 + 20 :=
    normSlice_eq_self (by omega) hb1
  have e2s : normSlice L2 (c2 - 20) = c2 - 20 :=
    normSlice_eq_self ha2 (by omega)
  have e2e : normSlice L2 (c2 + 20) = c2 + 20 :=
    normSlice_eq_self (by omega) hb2
  have hcond : (inSliceB L0 (c0 - 20) (c0 + 20) v0
      && inSliceB L1 (c1 - 20) (c1 + 20) v1
      && inSliceB L2 (c2 - 20) (c2 + 20) v2)
      = inSpecCubeB (c0, c1, c2) (v0, v1, v2) := by
    simp only [inSliceB, inSpecCubeB, e0s, e0e, e1s, e1e, e2s, e2e]
    simp [Bool.and_assoc]
  constructor
  · cases hc : inSpecCubeB (c0, c1, c2) (v0, v1, v2) <;>
      simp [maskVal, hcond, hc]
  · intro hc
    simp [maskVal, hcond, hc]

/-- Witness for the amended C8 at an interior center: on a 64-cubed
volume with center `(32, 32, 32)`, the mask is zero at the center voxel
and one at a voxel outside the cube. -/
theorem mask_cube_in_bounds_witness :
    ((maskVal (64, 64, 64) (32, 32, 32) (32, 32, 32) = 0 ↔
        inSpecCubeB (32, 32, 32) (32, 32, 32) = true) ∧
      (inSpecCubeB (32, 32, 32) (32, 32, 32) = false →
        maskVal (64, 64, 64) (32, 32, 32) (32, 32, 32) = 1)) ∧
    ((maskVal (64, 64, 64) (32, 32, 32) (1, 2, 3) = 0 ↔
        inSpecCubeB (32, 32, 32) (1, 2, 3) = true) ∧
      (inSpecCubeB (32, 32, 32) (1, 2, 3) = false →
        maskVal (64, 64, 64) (32, 32, 32) (1, 2, 3) = 1)) :=
  ⟨mask_cube_in_bounds 64 64 64 32 32 32 32 32 32 (by decide) (by decide)
      (by decide) (by decide) (by decide) (by decide),
    mask_cube_in_bounds 64 64 64 32 32 32 1 2 3 (by decide) (by decide)
      (by decide) (by decide) (by decide) (by decide)⟩

/-- Claim C10: a negative slice bound (any coordinate component with
`int(component) - 20 < 0`) is interpreted as an offset from the end of
the axis; in particular on a 64-cubed volume with center
`(10, 32, 32)` the axis-0 slice becomes `54:30`, the zeroed region is
empty and the mask is one everywhere (so the intended cube is not
zeroed), and the construction still yields a well-defined value
(one or zero) for every coordinate. -/
theorem negative_slice_wraps_to_end :
    (∀ len s : Int, s < 0 → 0 ≤ s + len → normSlice len s = s + len) ∧
    (∀ v0 v1 v2 : Int, maskVal (64, 64, 64) (10, 32, 32) (v0, v1, v2) = 1) ∧
    (∀ shape center v : Int × Int × Int,
      maskVal shape center v = 0 ∨ maskVal shape center v = 1) := by
  refine ⟨?_, ?_, ?_⟩
  · intro len s hneg hin
    unfold normSlice
    rw [if_pos hneg]
    omega
  · intro v0 v1 v2
    have hs : normSlice 64 (-10) = 54 := by decide
    have he : normSlice 64 30 = 30 := by decide
    have h0 : inSliceB 64 (-10) 30 v0 = false := by
      simp only [inSliceB, hs, he]
      simp only [Bool.and_eq_false_iff, decide_eq_false_iff_not, not_le,
        not_lt]
      omega
    simp [maskVal, h0]
  · intro shape center v
    unfold maskVal
    split <;> simp

/-- Witness for C10: the negative-offset clause at `len = 64`,
`s = -10`, combined with the all-ones mask at a concrete voxel. -/
theorem negative_slice_wraps_to_end_witness :
    normSlice 64 (-10) = -10 + 64 ∧
    maskVal (64, 64, 64) (10, 32, 32) (0, 0, 0) = 1 ∧
    (maskVal (64, 64, 64) (10, 32, 32) (63, 63, 63) = 0 ∨
      maskVal (64, 64, 64) (10, 32, 32) (63, 63, 63) = 1) :=
  ⟨negative_slice_wraps_to_end.1 64 (-10) (by decide) (by decide),
    negative_slice_wraps_to_end.2.1 0 0 0,
    negative_slice_wraps_to_end.2.2 (64, 64, 64) (10, 32, 32) (63, 63, 63)⟩

/-- Claim C9, evaluated on the code: the FreeSurfer install root is
never resolved the way the spec describes.  With no `--fs` and the
environment variable unset the lookup raises KeyError without ever
consulting the well-known install locations (even when they exist);
with `--fs` given the path variable is never assigned and its first use
raises NameError; only the environment-variable case succeeds. -/
theorem freesurfer_resolution_eval :
    (∀ dirExists : String → Bool,
      resolveFreesurferPath none none dirExists = .error .keyError) ∧
    (∀ (p : String) (env : Option String) (dirExists : String → Bool),
      resolveFreesurferPath (some p) env dirExists = .error .nameError) ∧
    (∀ (v : String) (dirExists : String → Bool),
      resolveFreesurferPath none (some v) dirExists = .ok v) :=
  ⟨fun _ => rfl, fun _ _ _ => rfl, fun _ _ => rfl⟩

/-- Concrete three-subject worklist, none previously labeled. -/
def W3 : List Row := [⟨"S1", "S1", 5⟩, ⟨"S2", "S2", 6⟩, ⟨"S3", "S3", 7⟩]

/-- A block of five valid console answers for one subject: preference
slot 1, confidence certain, moderate difference, no failures, comment
"ok". -/
def answerBlock : List Inp :=
  [.line "1", .line "3", .line "2", .line "0", .line "ok"]

/-- Enough valid console input for three subjects. -/
def inputs3 : List Inp := answerBlock ++ answerBlock ++ answerBlock

/-- Claim C1, evaluated at its own scenario: with three subjects, none
previously labeled, method1 = "A", method2 = "B", and valid answers for
all three subjects available, running the orchestrator to completion
appends exactly TWO records (for the first two subjects), not three:
the loop `zip(diff_areas[:-1], diff_areas[1:])` pairs adjacent rows, so
the last subject is only ever prefetched and never questioned, although
the script then prints that all cases have been labeled.  Each appended
record does carry the slot pair `("A", "B")` (a permutation of the two
methods for this shuffle stream) with the chosen best among the two
slots. -/
theorem three_subject_run_appends_two_records :
    ((runOrchestrator "A" "B" "tester" (fun _ => false) W3 inputs3).2.1).length
        = 2 ∧
    (runOrchestrator "A" "B" "tester" (fun _ => false) W3 inputs3).2.2
        = .completed ∧
    ((runOrchestrator "A" "B" "tester" (fun _ => false) W3 inputs3).2.1).map
        (fun rec => (rec.id, rec.m1, rec.m2, rec.best))
      = [("S1", "A", "B", "A"), ("S2", "A", "B", "A")] := by
  refine ⟨?_, ?_, ?_⟩ <;> rfl

/-! ### Helper lemmas about trace ordering -/

theorem memB_iff (e : Event) : ∀ t : List Event, memB e t = true ↔ e ∈ t
  | [] => by simp [memB]
  | x :: t => by
    rw [memB]
    by_cases h : x = e
    · simp [h]
    · rw [if_neg h, memB_iff e t]
      simp only [List.mem_cons]
      constructor
      · exact Or.inr
      · rintro (h' | h')
        · exact absurd h'.symm h
        · exact h'

theorem memB_cons {b : Event} {t : List Event} (x : Event)
    (h : memB b t = true) : memB b (x :: t) = true := by
  rw [memB]
  split <;> simp [h]

theorem memB_of_beforeB {a b : Event} :
    ∀ t : List Event, beforeB t a b = true → memB b t = true
  | [], h => by simp [beforeB] at h
  | x :: t, h => by
    rw [beforeB] at h
    by_cases hx : x = a
    · rw [if_pos hx] at h
      exact memB_cons x h
    · rw [if_neg hx] at h
      exact memB_cons x (memB_of_beforeB t h)

theorem beforeB_cons {a b : Event} {t : List Event} (x : Event)
    (h : beforeB t a b = true) : beforeB (x :: t) a b = true := by
  rw [beforeB]
  by_cases hx : x = a
  · rw [if_pos hx]
    exact memB_of_beforeB t h
  · rw [if_neg hx]
    exact h

theorem beforeB_head {b : Event} {t : List Event} (a : Event)
    (h : memB b t = true) : beforeB (a :: t) a b = true := by
  rw [beforeB, if_pos rfl]
  exact h

theorem mem_of_getElem? {b : Event} :
    ∀ (t : List Event) (n : Nat), t[n]? = some b → b ∈ t
  | x :: t, 0, h => by
    simp only [List.getElem?_cons_zero, Option.some.injEq] at h
    exact h ▸ List.mem_cons_self x t
  | x :: t, n + 1, h => by
    simp only [List.getElem?_cons_succ] at h
    exact List.mem_cons_of_mem x (mem_of_getElem? t n h)

/-- The position-based reading of `beforeB`: some occurrence of `a` is
strictly earlier in the trace than some occurrence of `b`. -/
theorem beforeB_iff (a b : Event) :
    ∀ t : List Event,
      beforeB t a b = true ↔
        ∃ i j : Nat, i < j ∧ t[i]? = some a ∧ t[j]? = some b
  | [] => by simp [beforeB]
  | x :: t => by
    constructor
    · intro h
      rw [beforeB] at h
      by_cases hx : x = a
      · rw [if_pos hx] at h
        rcases List.mem_iff_getElem?.mp ((memB_iff b t).mp h) with ⟨n, hn⟩
        exact ⟨0, n + 1, Nat.succ_pos n, by simp [hx], by simpa using hn⟩
      · rw [if_neg hx] at h
        rcases (beforeB_iff a b t).mp h with ⟨i, j, hij, hi, hj⟩
        exact ⟨i + 1, j + 1, by omega, by simpa using hi, by simpa using hj⟩
    · rintro ⟨i, j, hij, hi, hj⟩
      rw [beforeB]
      rcases i with _ | i
      · simp only [List.getElem?_cons_zero, Option.some.injEq] at hi
        rw [if_pos hi]
        rcases j with _ | j
        · omega
        · simp only [List.getElem?_cons_succ] at hj
          exact (memB_iff b t).mpr (mem_of_getElem? t j hj)
      · rcases j with _ | j
        · omega
        · simp only [List.getElem?_cons_succ] at hi hj
          by_cases hx : x = a
          · rw [if_pos hx]
            exact (memB_iff b t).mpr (mem_of_getElem? t j hj)
          · rw [if_neg hx]
            exact (beforeB_iff a b t).mpr ⟨i, j, by omega, hi, hj⟩

/-- Main invariant of the session loop, by induction on the worklist
tail: running the steady state over the pairs of `r :: w` with the
prefetched session for `r` current yields some number `j` of processed
subjects such that (1) the appended records are exactly one per
processed subject, in worklist order, (2) so are the append events of
the trace, (3) for every processed subject the prefetch launch of the
following row precedes the questions about it and its SIGTERM precedes
its record append, and (4) every trace prefix has a net live-session
count of at most one (on top of the one session alive on entry). -/
theorem sessionLoopAux_spec (m1 m2 user : String) (sh : Nat → Bool) :
    ∀ (w : List Row) (r : Row) (ms : String × String) (k : Nat)
      (inputs : List Inp) (t : List Event) (recs : List LabelRecord)
      (oc : Outcome),
      sessionLoopAux m1 m2 user sh (pairsOf (r :: w)) ⟨r.sid, ms⟩ k inputs
        = (t, recs, oc) →
      ∃ j, j ≤ w.length ∧
        recs.map (fun rec => rec.id) = ((r :: w).take j).map (fun x => x.rid) ∧
        appendsOf t = ((r :: w).take j).map (fun x => x.rid) ∧
        (∀ i, i < j →
          beforeB t (.launch (((r :: w).getD (i + 1) defRow).sid))
              (.ask (((r :: w).getD i defRow).sid)) = true ∧
          beforeB t (.terminate (((r :: w).getD i defRow).sid))
              (.append (((r :: w).getD i defRow).rid)) = true) ∧
        (∀ n, aliveDelta (t.take n) ≤ 1) := by
  intro w
  induction w with
  | nil =>
    intro r ms k inputs t recs oc h
    simp only [pairsOf, sessionLoopAux, Prod.mk.injEq] at h
    obtain ⟨ht, hrecs, _⟩ := h
    subst ht hrecs
    refine ⟨0, by omega, by simp, by simp [appendsOf], by omega, ?_⟩
    intro n
    simp [aliveDelta]
  | cons r1 w' ih =>
    intro r ms k inputs t recs oc h
    have hpairs : pairsOf (r :: r1 :: w') = (r, r1) :: pairsOf (r1 :: w') := rfl
    rw [hpairs] at h
    rcases hq : runQ ms .pref accInit inputs with ⟨res, leftover⟩
    cases res with
    | stopped =>
      rw [sessionLoopAux] at h
      simp only [hq, Prod.mk.injEq] at h
      obtain ⟨ht, hrecs, _⟩ := h
      subst ht hrecs
      refine ⟨0, by omega, by simp, by simp [appendsOf], by omega, ?_⟩
      intro n
      rcases n with _ | _ | _ | _ | n <;>
        simp [aliveDelta, eventDelta, List.take_succ_cons]
    | outOfInput =>
      rw [sessionLoopAux] at h
      simp only [hq, Prod.mk.injEq] at h
      obtain ⟨ht, hrecs, _⟩ := h
      subst ht hrecs
      refine ⟨0, by omega, by simp, by simp [appendsOf], by omega, ?_⟩
      intro n
      rcases n with _ | _ | n <;>
        simp [aliveDelta, eventDelta, List.take_succ_cons]
    | finished rr =>
      rcases hrec : sessionLoopAux m1 m2 user sh (pairsOf (r1 :: w'))
          ⟨r1.sid, methodsFor m1 m2 (sh k)⟩ (k + 1) leftover with
        ⟨t0, recs0, oc0⟩
      rw [sessionLoopAux] at h
      simp only [hq, hrec, Prod.mk.injEq] at h
      obtain ⟨ht, hrecs, hoc⟩ := h
      subst ht hrecs hoc
      obtain ⟨j0, hj0, hmap0, happ0, hbef0, halive0⟩ :=
        ih r1 (methodsFor m1 m2 (sh k)) (k + 1) leftover t0 recs0 oc0 hrec
      refine ⟨j0 + 1, by simpa using hj0, ?_, ?_, ?_, ?_⟩
      · simp only [List.map_cons, List.take_succ_cons]
        rw [hmap0]
      · simp only [appendsOf, List.take_succ_cons, List.map_cons]
        rw [happ0]
      · intro i hi
        rcases i with _ | i0
        · simp only [List.getD_cons_zero, List.getD_cons_succ]
          constructor
          · refine beforeB_head _ ?_
            rw [memB, if_pos rfl]
          · refine beforeB_cons _ (beforeB_cons _ (beforeB_head _ ?_))
            rw [memB, if_pos rfl]
        · have hb := hbef0 i0 (by omega)
          simp only [List.getD_cons_succ] at hb ⊢
          exact ⟨beforeB_cons _ (beforeB_cons _ (beforeB_cons _
              (beforeB_cons _ hb.1))),
            beforeB_cons _ (beforeB_cons _ (beforeB_cons _
              (beforeB_cons _ hb.2)))⟩
      · intro n
        rcases n with _ | _ | _ | _ | n
        · simp [aliveDelta]
        · simp [aliveDelta, eventDelta, List.take_succ_cons]
        · simp [aliveDelta, eventDelta, List.take_succ_cons]
        · simp [aliveDelta, eventDelta, List.take_succ_cons]
        · have h5 := halive0 n
          simp only [List.take_succ_cons, aliveDelta, eventDelta]
          omega

/-- Top-level form of `sessionLoopAux_spec` for a whole run, covering
the initial `p_next is None` iteration (one extra launch at the front of
the trace, hence the overall bound of two live sessions). -/
theorem runOrchestrator_spec (m1 m2 user : String) (sh : Nat → Bool)
    (w : List Row) (inputs : List Inp) (t : List Event)
    (recs : List LabelRecord) (oc : Outcome)
    (h : runOrchestrator m1 m2 user sh w inputs = (t, recs, oc)) :
    ∃ j, j ≤ w.length - 1 ∧
      recs.map (fun rec => rec.id) = (w.take j).map (fun x => x.rid) ∧
      appendsOf t = (w.take j).map (fun x => x.rid) ∧
      (∀ i, i < j →
        beforeB t (.launch ((w.getD (i + 1) defRow).sid))
            (.ask ((w.getD i defRow).sid)) = true ∧
        beforeB t (.terminate ((w.getD i defRow).sid))
            (.append ((w.getD i defRow).rid)) = true) ∧
      (∀ n, aliveDelta (t.take n) ≤ 2) := by
  match w with
  | [] =>
    simp only [runOrchestrator, pairsOf, Prod.mk.injEq] at h
    obtain ⟨ht, hrecs, _⟩ := h
    subst ht hrecs
    exact ⟨0, by omega, by simp, by simp [appendsOf], by omega,
      fun n => by simp [aliveDelta]⟩
  | [r] =>
    simp only [runOrchestrator, pairsOf, Prod.mk.injEq] at h
    obtain ⟨ht, hrecs, _⟩ := h
    subst ht hrecs
    exact ⟨0, by omega, by simp, by simp [appendsOf], by omega,
      fun n => by simp [aliveDelta]⟩
  | r :: r1 :: w'' =>
    rcases hrec : sessionLoopAux m1 m2 user sh (pairsOf (r :: r1 :: w''))
        ⟨r.sid, methodsFor m1 m2 (sh 0)⟩ 1 inputs with ⟨t0, recs0, oc0⟩
    rw [runOrchestrator] at h
    rw [hrec] at h
    simp only [Prod.mk.injEq] at h
    obtain ⟨ht, hrecs, _⟩ := h
    subst ht hrecs
    obtain ⟨j, hj, hmap, happ, hbef, halive⟩ :=
      sessionLoopAux_spec m1 m2 user sh (r1 :: w'') r
        (methodsFor m1 m2 (sh 0)) 1 inputs t0 recs0 oc0 hrec
    refine ⟨j, by simpa using hj, hmap, by simpa [appendsOf] using happ, ?_, ?_⟩
    · intro i hi
      obtain ⟨hb1, hb2⟩ := hbef i hi
      exact ⟨beforeB_cons _ hb1, beforeB_cons _ hb2⟩
    · intro n
      rcases n with _ | n
      · simp [aliveDelta]
      · have h1 := halive n
        simp only [List.take_succ_cons, aliveDelta, eventDelta]
        omega

/-- Claim C6: in every run (any console input, any shuffle stream), the
appended records are exactly one per processed subject in worklist
order (and so are the append events), every processed subject has the
viewer session of the following worklist row launched before the
questions about it are asked, and its own session is SIGTERMed before
its record is appended.  Processed subjects are always among the first
`length - 1` rows. -/
theorem prefetch_and_append_order (m1 m2 user : String) (sh : Nat → Bool)
    (w : List Row) (inputs : List Inp) :
    ∃ j, j ≤ w.length - 1 ∧
      ((runOrchestrator m1 m2 user sh w inputs).2.1).map (fun rec => rec.id)
        = (w.take j).map (fun x => x.rid) ∧
      appendsOf (runOrchestrator m1 m2 user sh w inputs).1
        = (w.take j).map (fun x => x.rid) ∧
      ((List.range j).all (fun i =>
        beforeB (runOrchestrator m1 m2 user sh w inputs).1
            (.launch ((w.getD (i + 1) defRow).sid))
            (.ask ((w.getD i defRow).sid))
          && beforeB (runOrchestrator m1 m2 user sh w inputs).1
            (.terminate ((w.getD i defRow).sid))
            (.append ((w.getD i defRow).rid)))) = true := by
  rcases hr : runOrchestrator m1 m2 user sh w inputs with ⟨t, recs, oc⟩
  obtain ⟨j, hj, hmap, happ, hbef, _⟩ :=
    runOrchestrator_spec m1 m2 user sh w inputs t recs oc hr
  refine ⟨j, hj, hmap, happ, ?_⟩
  rw [List.all_eq_true]
  intro i hi
  obtain ⟨hb1, hb2⟩ := hbef i (List.mem_range.mp hi)
  simp only [Bool.and_eq_true]
  exact ⟨hb1, hb2⟩

/-- Claim C7: at every instant of every run at most two viewer sessions
are alive: every prefix of the event trace has a net live-session count
(launches minus SIGTERMs) of at most two. -/
theorem at_most_two_sessions_alive (m1 m2 user : String) (sh : Nat → Bool)
    (w : List Row) (inputs : List Inp) (n : Nat) :
    aliveDelta (((runOrchestrator m1 m2 user sh w inputs).1).take n) ≤ 2 := by
  rcases hr : runOrchestrator m1 m2 user sh w inputs with ⟨t, recs, oc⟩
  obtain ⟨_, _, _, _, _, halive⟩ :=
    runOrchestrator_spec m1 m2 user sh w inputs t recs oc hr
  simpa using halive n

/-- Claim C2: rows whose `ID` is already in the first column of the
results store are excluded from the worklist before the loop, the
remaining rows keep their original order, no record appended by a run
over the filtered worklist carries an already-labeled identifier, and
on the concrete scenario (store containing "S1", worklist
["S1", "S2", "S3"]) the effective worklist is ["S2", "S3"]. -/
theorem resume_filter_excludes_labeled (R : List String) (W : List Row) :
    ((resumeFilter R W).all (fun r => !(R.contains r.rid))) = true ∧
    (resumeFilter R W).Sublist W ∧
    (∀ (m1 m2 user : String) (sh : Nat → Bool) (inputs : List Inp),
      ((((runOrchestrator m1 m2 user sh (resumeFilter R W) inputs).2.1).map
          (fun rec => rec.id)).all (fun i => !(R.contains i))) = true) ∧
    (resumeFilter ["S1"] W3).map (fun x => x.rid) = ["S2", "S3"] := by
  refine ⟨?_, List.filter_sublist W, ?_, by decide⟩
  · rw [List.all_eq_true]
    intro x hx
    simp only [resumeFilter] at hx
    have hpx := List.of_mem_filter hx
    exact hpx
  · intro m1 m2 user sh inputs
    rcases hr : runOrchestrator m1 m2 user sh (resumeFilter R W) inputs with
      ⟨t, recs, oc⟩
    obtain ⟨j, _, hmap, _, _, _⟩ :=
      runOrchestrator_spec m1 m2 user sh (resumeFilter R W) inputs t recs oc hr
    have hgoal : ((recs.map (fun rec => rec.id)).all
        (fun i => !(R.contains i))) = true := by
      rw [List.all_eq_true]
      intro x hx
      rw [hmap] at hx
      rcases List.mem_map.mp hx with ⟨row, hrow, hrfl⟩
      subst hrfl
      have hmem : row ∈ resumeFilter R W := List.mem_of_mem_take hrow
      simp only [resumeFilter] at hmem
      have hpx := List.of_mem_filter hmem
      exact hpx
    exact hgoal

end SegLabel
